import Mathlib

/-!
# Verification of the slime text-buffer engine

Shallow embedding of the core text-buffer engine (`src/row.rs`,
`src/document.rs`, `src/editor.rs`) of the slime line editor.

All line-local addressing in the source operates on extended grapheme
clusters (`unicode_segmentation::graphemes(true)`).  We model a line's
content as the list of its grapheme clusters, abstracting each cluster as
one `Char`; `graphemes(true).skip/take/collect` then becomes
`List.drop/List.take/(++)`.  Machine integers (`usize`) are modelled as
`Nat`; Rust's `saturating_sub`/`saturating_add` coincide with `Nat`
subtraction/addition.  Fallible operations return `Option`/`Except`, and
the external file system is abstracted by a boolean outcome.
-/

namespace Slime

/-- A cursor/edit position: `x` is a cluster offset within a line, `y` a
line index (`src/editor.rs`, `struct Position`). -/
structure Position where
  x : Nat
  y : Nat
deriving DecidableEq, Repr

/-- Search direction (`src/editor.rs`, `enum SearchDir`). -/
inductive SearchDir where
  | Forward
  | Backward
deriving DecidableEq, Repr

/-- One line of text (`src/row.rs`, `struct Row`): `string` is the content
as its list of grapheme clusters, `len` the cached cluster count. -/
structure Row where
  string : List Char
  len : Nat
deriving DecidableEq, Repr

namespace Row

/-- Embeds `Row::default()`: empty content, zero cached length. -/
def default : Row := ⟨[], 0⟩

/-- Embeds `Row::size`: live grapheme-cluster count of the content. -/
def size (r : Row) : Nat := r.string.length

/-- Embeds `Row::update_len`: recompute the cached cluster count. -/
def update_len (r : Row) : Row := { r with len := r.string.length }

/-- Embeds `Row::from` (the `From<String>`/`From<&str>` impls): wrap content and
recompute the cached length. -/
def fromList (s : List Char) : Row := (Row.mk s 0).update_len

/-- Embeds `Row::insert` (`src/row.rs` lines 31-42): `at ≥ len` pushes the
character at the end, otherwise the content is rebuilt as
(clusters before `at`) ++ ch ++ (clusters from `at`); then `update_len`. -/
def insert (r : Row) (i : Nat) (ch : Char) : Row :=
  if i ≥ r.len then
    ({ r with string := r.string ++ [ch] }).update_len
  else
    ({ r with string := r.string.take i ++ [ch] ++ r.string.drop i }).update_len

/-- Embeds `Row::insert_str` (`src/row.rs` lines 43-53): `at ≥ len` appends `s`
to the content; otherwise the source computes `result` (clusters before
`at`, then `s`, then the clusters from `at`) and `remainder` but never
writes `result` back into `self.string`, so the content is unchanged;
both branches end in `update_len`. -/
def insert_str (r : Row) (i : Nat) (s : List Char) : Row :=
  if i ≥ r.len then
    ({ r with string := r.string ++ s }).update_len
  else
    r.update_len

/-- Embeds `Row::delete` (`src/row.rs` lines 54-62): if `at < len` the content is
rebuilt without the cluster at offset `at` and the length recomputed;
otherwise no-op. -/
def delete (r : Row) (i : Nat) : Row :=
  if i < r.len then
    ({ r with string := r.string.take i ++ r.string.drop (i + 1) }).update_len
  else
    r

/-- Embeds `Row::delete_slice` (`src/row.rs` lines 63-76): when `to > from` and
`to ≤ len`, removes clusters `[from, to)` from the content, recomputes the
length and returns the removed part; otherwise returns `none` and leaves
the row unchanged. -/
def delete_slice (r : Row) (f t : Nat) : Row × Option (List Char) :=
  if t > f ∧ t ≤ r.len then
    let removed := (r.string.drop f).take (t - f)
    let result := r.string.take f ++ r.string.drop (f + t - f)
    (({ r with string := result }).update_len, some removed)
  else
    (r, none)

/-- Modelled from the spec: `Row::find` is called by `Document::find`
(`src/document.rs` line 119) but its definition is absent from the
sources.  Per spec §4.2, a forward search of a line "begins at
startPosition.x" and returns the first match in scan order, and a
backward scan of a line starting at `x` finds the match nearest the
cursor; we model this as: forward, the least cluster offset `m ≥ x` at
which the query occurs; backward, the greatest offset `m` at which the
query occurs wholly within the first `x` clusters (`m + |q| ≤ x`).  An
empty query never matches. -/
def find (r : Row) (q : List Char) (x : Nat) (dir : SearchDir) : Option Nat :=
  if q = [] then none
  else
    match dir with
    | SearchDir.Forward =>
        (List.range (r.size + 1)).find? fun m =>
          decide (x ≤ m) && q.isPrefixOf (r.string.drop m)
    | SearchDir.Backward =>
        ((List.range (r.size + 1)).filter fun m =>
          decide (m + q.length ≤ x) && q.isPrefixOf (r.string.drop m)).getLast?

end Row

/-- Embeds `Vec::insert(index, elem)`: insert an element before position `i`,
shifting the tail (indices in the source's calls are always in bounds). -/
def insertAt : List Row → Nat → Row → List Row
  | rs, 0, r => r :: rs
  | [], _ + 1, r => [r]
  | r' :: rs, i + 1, r => r' :: insertAt rs i r

/-- In-place mutation of the row at index `i` (`self.rows[index]` through
`Document::row_mut`); out-of-range indices leave the list unchanged. -/
def modifyRow : List Row → Nat → (Row → Row) → List Row
  | [], _, _ => []
  | r :: rs, 0, f => f r :: rs
  | r :: rs, i + 1, f => r :: modifyRow rs i f

/-- The `new_row` built inside `Document::insert_enter_key`
(`src/document.rs` lines 148-151): a default row, into which the removed
slice is inserted at offset 0 when `delete_slice` returned one. -/
def newRowFromSlice : Option (List Char) → Row
  | some slice => Row.default.insert_str 0 slice
  | none => Row.default

/-- The document (`src/document.rs`, `struct Document`): an optional file
path, the ordered rows, and the dirty flag. -/
structure Document where
  path : Option String
  rows : List Row
  dirty : Bool
deriving DecidableEq, Repr

namespace Document

/-- Embeds `Document::rows_size`. -/
def rows_size (doc : Document) : Nat := doc.rows.length

/-- Embeds `Document::row`: `self.rows.get(index)`. -/
def row (doc : Document) (index : Nat) : Option Row := doc.rows.get? index

/-- Embeds `Document::is_empty`. -/
def is_empty (doc : Document) : Bool := doc.rows.length = 0

/-- Embeds `Document::is_dirty`. -/
def is_dirty (doc : Document) : Bool := doc.dirty

/-- Embeds `Document::insert_enter_key` (`src/document.rs` lines 144-154): if
`at.y` addresses an existing row, carve off that row's tail
`[at.x, size)` with `delete_slice`, build a new row from the removed
part (an empty row when `delete_slice` declines) and insert it at
`at.y + 1`; otherwise no-op. -/
def insert_enter_key (doc : Document) (p : Position) : Document :=
  if p.y < doc.rows_size then
    let r := doc.rows.getD p.y Row.default
    let res := r.delete_slice p.x r.size
    { doc with
        rows := insertAt (modifyRow doc.rows p.y fun _ => res.1) (p.y + 1)
          (newRowFromSlice res.2) }
  else
    doc

/-- Embeds `Document::insert` (`src/document.rs` lines 38-55): no-op when
`at.y > rows_size`; otherwise marks dirty, dispatches `'\n'` to
`insert_enter_key`, appends a fresh one-character row when
`at.y = rows_size`, and otherwise delegates to the addressed row. -/
def insert (doc : Document) (p : Position) (ch : Char) : Document :=
  if p.y > doc.rows_size then
    doc
  else
    let doc := { doc with dirty := true }
    if ch = '\n' then
      doc.insert_enter_key p
    else if p.y = doc.rows_size then
      { doc with rows := doc.rows ++ [Row.default.insert 0 ch] }
    else if p.y < doc.rows_size then
      { doc with rows := modifyRow doc.rows p.y fun r => r.insert p.x ch }
    else
      doc

/-- Embeds `Document::insert_str` (`src/document.rs` lines 56-65): appends a
fresh row built from `s` when `at.y = rows_size`, delegates to the
addressed row when `at.y < rows_size`; the dirty flag is not touched. -/
def insert_str (doc : Document) (p : Position) (s : List Char) : Document :=
  if p.y = doc.rows_size then
    { doc with rows := doc.rows ++ [Row.default.insert_str 0 s] }
  else if p.y < doc.rows_size then
    { doc with rows := modifyRow doc.rows p.y fun r => r.insert_str p.x s }
  else
    doc

/-- Embeds `Document::delete` (`src/document.rs` lines 66-82): when
`at.y < rows_size` and `at.y` is not the last index and `at.x` equals row
`at.y`'s live size, append the next row's text onto row `at.y` and remove
the next row; otherwise delete the single cluster at `at.x` of row
`at.y`; no-op when `at.y ≥ rows_size`.  The dirty flag is not touched. -/
def delete (doc : Document) (p : Position) : Document :=
  if p.y < doc.rows_size then
    if p.y < doc.rows_size - 1 then
      let prev_row := doc.rows.getD p.y Row.default
      let next_row := doc.rows.getD (p.y + 1) Row.default
      if p.x = prev_row.size then
        let merged := prev_row.insert_str prev_row.size next_row.string
        { doc with rows := (modifyRow doc.rows p.y fun _ => merged).eraseIdx (p.y + 1) }
      else
        { doc with rows := modifyRow doc.rows p.y fun r => r.delete p.x }
    else
      { doc with rows := modifyRow doc.rows p.y fun r => r.delete p.x }
  else
    doc

/-- Embeds `Document::save_to_disk` (`src/document.rs` lines 83-94).  The file
system is external; its outcome is abstracted by `io_ok`.  With a path:
on success every row's bytes followed by `b"\n"` are written in order and
the dirty flag is cleared; on failure the `?` operator returns the error
before `self.dirty = false` runs, leaving the document untouched.  With
no path nothing is written and the dirty flag is cleared. -/
def save_to_disk (doc : Document) (io_ok : Bool) : Document × Except Unit (Option (List Char)) :=
  match doc.path with
  | some _ =>
      if io_ok then
        let written := doc.rows.foldl (fun acc r => acc ++ r.string ++ ['\n']) []
        ({ doc with dirty := false }, Except.ok (some written))
      else
        (doc, Except.error ())
  | none => ({ doc with dirty := false }, Except.ok none)

/-- The body of `Document::find`'s scan loop (`src/document.rs` lines
117-133): the fuel is the trip count `end - start`; a missing row aborts
with `none`; a row-level hit returns the position; otherwise forward
moves to the next line with `x` reset to 0 and backward moves to the
previous line with `x` set to that line's size. -/
def findLoop (doc : Document) (q : List Char) (dir : SearchDir) :
    Nat → Position → Option Position
  | 0, _ => none
  | n + 1, pos =>
    match doc.row pos.y with
    | none => none
    | some r =>
      match r.find q pos.x dir with
      | some x => some { pos with x := x }
      | none =>
        match dir with
        | SearchDir.Forward => findLoop doc q dir n ⟨0, pos.y + 1⟩
        | SearchDir.Backward =>
            findLoop doc q dir n
              ⟨(doc.rows.getD (pos.y - 1) Row.default).size, pos.y - 1⟩

/-- Embeds `Document::find` (`src/document.rs` lines 98-136): `none` when
`at.y > rows_size`; otherwise run the scan loop `end - start` times
(forward: `at.y` to `rows_size`; backward: `0` to `at.y + 1`) starting
from `at`. -/
def find (doc : Document) (q : List Char) (p : Position) (dir : SearchDir) :
    Option Position :=
  if p.y > doc.rows_size then
    none
  else
    let start := if dir = SearchDir.Forward then p.y else 0
    let stop := if dir = SearchDir.Forward then doc.rows_size else p.y + 1
    findLoop doc q dir (stop - start) p

/-- Well-formedness invariant of spec §3: every row's cached `len` equals
the cluster count of its content.  Every row the program builds satisfies
it (`update_len` runs after every mutation). -/
def Wf (doc : Document) : Prop := ∀ r ∈ doc.rows, r.len = r.string.length

instance : DecidablePred Wf := fun doc =>
  inferInstanceAs (Decidable (∀ r ∈ doc.rows, r.len = r.string.length))

end Document

/-- Movement keys handled by `Editor::process_move`. -/
inductive MoveKey where
  | left
  | right
  | up
  | down
  | home
  | keyEnd
  | pageUp
  | pageDown
deriving DecidableEq, Repr

/-- The key-specific part of `Editor::process_move` (`src/editor.rs`
lines 442-480): the `(x, y)` pair after the `match key` block, before the
final clamps.  Rust's `saturating_sub`/`saturating_add` on `usize` are
`Nat` subtraction/addition. -/
def moveStep (doc : Document) (terminal_height : Nat) (p : Position)
    (key : MoveKey) : Nat × Nat :=
  match key with
  | MoveKey.left =>
      if p.x > 0 then (p.x - 1, p.y)
      else if p.y > 0 then
        match doc.row (p.y - 1) with
        | some r => (r.size, p.y - 1)
        | none => (0, p.y - 1)
      else (p.x, p.y)
  | MoveKey.right =>
      match doc.row p.y with
      | some r =>
          if p.x < r.size then (p.x + 1, p.y)
          else if p.y < doc.rows_size - 1 then (0, p.y + 1)
          else (p.x, p.y)
      | none => (0, p.y)
  | MoveKey.up => (p.x, p.y - 1)
  | MoveKey.down => (p.x, p.y + 1)
  | MoveKey.home => (0, p.y)
  | MoveKey.keyEnd =>
      match doc.row p.y with
      | some r => (r.size, p.y)
      | none => (0, p.y)
  | MoveKey.pageDown => (p.x, p.y + (terminal_height - 1))
  | MoveKey.pageUp => (p.x, p.y - (terminal_height - 1))

/-- Embeds `Editor::process_move` (`src/editor.rs` lines 438-490): the
key-specific movement, then `x` clamped to the (pre-clamp) target line's
size (0 when the line is missing) and `y` clamped to `rows_size - 1`
(saturating, so 0 on an empty buffer). -/
def process_move (doc : Document) (terminal_height : Nat) (p : Position)
    (key : MoveKey) : Position :=
  let moved := moveStep doc terminal_height p key
  let x :=
    match doc.row moved.2 with
    | some r => min moved.1 r.size
    | none => 0
  ⟨x, min moved.2 (doc.rows_size - 1)⟩

/-- The size of the line at index `y`, or `0` when no such line exists;
the bound the cursor's `x` must satisfy after every move (spec §4.3). -/
def lineSize (doc : Document) (y : Nat) : Nat :=
  match doc.row y with
  | some r => r.size
  | none => 0

/-- The scan order described by spec §4.2 for `find`: forward visits
`(startPosition.x, startPosition.y)` and then every later line from
offset 0; backward visits `(startPosition.x, startPosition.y)` and then
every earlier line, in descending order, from that line's full length. -/
def specScanPositions (doc : Document) (p : Position) : SearchDir → List Position
  | SearchDir.Forward =>
      p :: (List.range' (p.y + 1) (doc.rows_size - (p.y + 1))).map fun y => ⟨0, y⟩
  | SearchDir.Backward =>
      p :: (List.range p.y).reverse.map fun y =>
        ⟨(doc.rows.getD y Row.default).size, y⟩

/-- One scan step: search the addressed line (when it exists) from the
given offset; a hit yields the match position on that line. -/
def tryRowAt (doc : Document) (q : List Char) (dir : SearchDir) (pos : Position) :
    Option Position :=
  match doc.row pos.y with
  | some r => (r.find q pos.x dir).map fun x => ⟨x, pos.y⟩
  | none => none

/-- Spec-side reference search (spec §4.2, written from the spec's words,
to be compared with `Document.find`): the first match along the scan
order, never wrapping past either buffer end. -/
def specScanFind (doc : Document) (q : List Char) (p : Position) (dir : SearchDir) :
    Option Position :=
  (specScanPositions doc p dir).findSome? (tryRowAt doc q dir)

/-! ## Helper lemmas -/

theorem Row.fromList_string (s : List Char) : (Row.fromList s).string = s := rfl

theorem Row.fromList_len (s : List Char) : (Row.fromList s).len = s.length := rfl

/-- A well-formed row is determined by its content. -/
theorem Row.eq_fromList (r : Row) (hwf : r.len = r.string.length) :
    r = Row.fromList r.string := by
  cases r with
  | mk s l =>
      simp only [Row.fromList, Row.update_len] at hwf ⊢
      exact congrArg (Row.mk s) hwf

/-- Carving the tail `[x, size)` out of a well-formed row leaves the first
`x` clusters. -/
theorem Row.delete_slice_fst (r : Row) (x : Nat) (hwf : r.len = r.string.length) :
    (r.delete_slice x r.size).1 = Row.fromList (r.string.take x) := by
  rcases Nat.lt_or_ge x r.string.length with hx | hx
  · have hcond : r.size > x ∧ r.size ≤ r.len := by
      constructor
      · exact hx
      · simp [Row.size, hwf]
    simp only [Row.delete_slice, if_pos hcond]
    have h1 : x + r.size - x = r.string.length := by simp [Row.size]
    rw [h1, List.drop_length, List.append_nil]
    rfl
  · have hcond : ¬(r.size > x ∧ r.size ≤ r.len) := by
      intro h
      exact absurd h.1 (by simp [Row.size]; omega)
    simp only [Row.delete_slice, if_neg hcond]
    rw [List.take_of_length_le hx]
    exact Row.eq_fromList r hwf

/-- The new row built by `insert_enter_key` from `delete_slice`'s result
holds exactly the removed tail `[x, size)`. -/
theorem Row.delete_slice_new_row (r : Row) (x : Nat) (hwf : r.len = r.string.length) :
    newRowFromSlice (r.delete_slice x r.size).2 = Row.fromList (r.string.drop x) := by
  rcases Nat.lt_or_ge x r.string.length with hx | hx
  · have hcond : r.size > x ∧ r.size ≤ r.len := by
      constructor
      · exact hx
      · simp [Row.size, hwf]
    simp only [Row.delete_slice, if_pos hcond]
    have htake : (r.string.drop x).take (r.size - x) = r.string.drop x := by
      apply List.take_of_length_le
      simp [Row.size]
    simp [htake, newRowFromSlice, Row.insert_str, Row.default, Row.update_len,
      Row.fromList]
  · have hcond : ¬(r.size > x ∧ r.size ≤ r.len) := by
      intro h
      exact absurd h.1 (by simp [Row.size]; omega)
    simp only [Row.delete_slice, if_neg hcond]
    rw [List.drop_of_length_le hx]
    rfl

/-- Embeds `Row::delete` on a well-formed row removes exactly the cluster at
offset `x` (and is the identity on the content when `x` is past the
end). -/
theorem Row.delete_eq (r : Row) (x : Nat) (hwf : r.len = r.string.length) :
    r.delete x = Row.fromList (r.string.take x ++ r.string.drop (x + 1)) := by
  rcases Nat.lt_or_ge x r.string.length with hx | hx
  · have hcond : x < r.len := by omega
    simp [Row.delete, if_pos hcond, Row.update_len, Row.fromList]
  · have hcond : ¬ x < r.len := by omega
    simp only [Row.delete, if_neg hcond]
    rw [List.take_of_length_le hx, List.drop_of_length_le (by omega), List.append_nil]
    exact Row.eq_fromList r hwf

/-- Embeds `Row::insert_str` at or past the cached length appends. -/
theorem Row.insert_str_append (r : Row) (i : Nat) (s : List Char)
    (h : r.len ≤ i) : r.insert_str i s = Row.fromList (r.string ++ s) := by
  simp [Row.insert_str, if_pos h, Row.update_len, Row.fromList]

theorem modifyRow_eq (rows : List Row) (y : Nat) (f : Row → Row)
    (h : y < rows.length) :
    modifyRow rows y f =
      rows.take y ++ f (rows.getD y Row.default) :: rows.drop (y + 1) := by
  induction rows generalizing y with
  | nil => simp at h
  | cons r rs ih =>
      cases y with
      | zero => simp [modifyRow]
      | succ j =>
          simp only [modifyRow, List.take_succ_cons, List.drop_succ_cons,
            List.getD_cons_succ, List.cons_append]
          rw [ih j (by simpa using h)]

theorem insertAt_modifyRow (rows : List Row) (y : Nat) (a b : Row)
    (h : y < rows.length) :
    insertAt (modifyRow rows y fun _ => a) (y + 1) b =
      rows.take y ++ a :: b :: rows.drop (y + 1) := by
  induction rows generalizing y with
  | nil => simp at h
  | cons r rs ih =>
      cases y with
      | zero =>
          cases rs with
          | nil => simp [modifyRow, insertAt]
          | cons r' rs' => simp [modifyRow, insertAt]
      | succ j =>
          simp only [modifyRow, insertAt, List.take_succ_cons,
            List.drop_succ_cons, List.cons_append, List.cons.injEq, true_and]
          exact ih j (by simpa using h)

theorem eraseIdx_modifyRow (rows : List Row) (y : Nat) (a : Row)
    (h : y + 1 < rows.length) :
    (modifyRow rows y fun _ => a).eraseIdx (y + 1) =
      rows.take y ++ a :: rows.drop (y + 2) := by
  induction rows generalizing y with
  | nil => simp at h
  | cons r rs ih =>
      cases y with
      | zero =>
          cases rs with
          | nil => simp at h
          | cons r' rs' => simp [modifyRow, List.eraseIdx]
      | succ j =>
          simp only [modifyRow, List.eraseIdx, List.take_succ_cons,
            List.drop_succ_cons, List.cons_append, List.cons.injEq, true_and]
          exact ih j (by simpa using h)

/-- The row addressed by an in-range index is one of the document's rows,
so it inherits the well-formedness invariant. -/
theorem getD_wf {doc : Document} (hwf : doc.Wf) {y : Nat}
    (h : y < doc.rows.length) :
    (doc.rows.getD y Row.default).len = (doc.rows.getD y Row.default).string.length := by
  apply hwf
  rw [List.getD_eq_getElem doc.rows Row.default h]
  exact List.getElem_mem h

/-- The write loop of `save_to_disk` produces each row's content followed
by one `'\n'`, in order. -/
theorem save_foldl_eq (rows : List Row) (acc : List Char) :
    rows.foldl (fun acc r => acc ++ r.string ++ ['\n']) acc =
      acc ++ (rows.map fun r => r.string ++ ['\n']).flatten := by
  induction rows generalizing acc with
  | nil => simp
  | cons r rs ih =>
      simp only [List.foldl_cons, List.map_cons, List.flatten_cons]
      rw [ih]
      simp [List.append_assoc]

/-- The forward scan loop visits `(p.x, p.y)` and then every later line
from offset 0, exactly the spec's forward scan order. -/
theorem findLoop_forward (doc : Document) (q : List Char) :
    ∀ (n : Nat) (p : Position), p.y + n = doc.rows.length →
      Document.findLoop doc q SearchDir.Forward n p =
        (specScanPositions doc p SearchDir.Forward).findSome?
          (tryRowAt doc q SearchDir.Forward) := by
  intro n
  induction n with
  | zero =>
      intro p hp
      have hrow : doc.row p.y = none :=
        List.get?_eq_none.mpr (by omega)
      have h0 : doc.rows_size - (p.y + 1) = 0 := by
        simp only [Document.rows_size]; omega
      simp [Document.findLoop, specScanPositions, h0, tryRowAt, hrow,
        List.findSome?]
  | succ m ih =>
      intro p hp
      have hlt : p.y < doc.rows.length := by omega
      obtain ⟨r, hrow⟩ : ∃ r, doc.row p.y = some r :=
        ⟨doc.rows.get ⟨p.y, hlt⟩, List.get?_eq_get hlt⟩
      have hsz : doc.rows_size - (p.y + 1) = m := by
        simp only [Document.rows_size]; omega
      cases hf : Row.find r q p.x SearchDir.Forward with
      | some x =>
          simp [Document.findLoop, hrow, hf, specScanPositions, tryRowAt,
            List.findSome?]
      | none =>
          have lhs1 : Document.findLoop doc q SearchDir.Forward (m + 1) p =
              Document.findLoop doc q SearchDir.Forward m ⟨0, p.y + 1⟩ := by
            simp [Document.findLoop, hrow, hf]
          have rhs1 : (specScanPositions doc p SearchDir.Forward).findSome?
                (tryRowAt doc q SearchDir.Forward) =
              ((List.range' (p.y + 1) m).map fun y => (⟨0, y⟩ : Position)).findSome?
                (tryRowAt doc q SearchDir.Forward) := by
            simp [specScanPositions, hsz, tryRowAt, hrow, hf, List.findSome?]
          rw [lhs1, rhs1]
          cases m with
          | zero =>
              simp [Document.findLoop, List.findSome?]
          | succ k =>
              rw [ih ⟨0, p.y + 1⟩ (by simpa using by omega)]
              have hk : doc.rows_size - (p.y + 1 + 1) = k := by
                simp only [Document.rows_size]; omega
              simp [specScanPositions, hk, List.range'_succ]

/-- The backward scan loop visits `(x, y)` and then every earlier line,
in descending order, from that line's full size, exactly the spec's
backward scan order. -/
theorem findLoop_backward (doc : Document) (q : List Char) :
    ∀ (y x : Nat), y < doc.rows.length →
      Document.findLoop doc q SearchDir.Backward (y + 1) ⟨x, y⟩ =
        (specScanPositions doc ⟨x, y⟩ SearchDir.Backward).findSome?
          (tryRowAt doc q SearchDir.Backward) := by
  intro y
  induction y with
  | zero =>
      intro x h
      obtain ⟨r, hrow⟩ : ∃ r, doc.row 0 = some r :=
        ⟨doc.rows.get ⟨0, h⟩, List.get?_eq_get h⟩
      cases hf : Row.find r q x SearchDir.Backward with
      | some x' =>
          simp [Document.findLoop, hrow, hf, specScanPositions, tryRowAt,
            List.findSome?]
      | none =>
          simp [Document.findLoop, hrow, hf, specScanPositions, tryRowAt,
            List.findSome?]
  | succ j ih =>
      intro x h
      obtain ⟨r, hrow⟩ : ∃ r, doc.row (j + 1) = some r :=
        ⟨doc.rows.get ⟨j + 1, h⟩, List.get?_eq_get h⟩
      cases hf : Row.find r q x SearchDir.Backward with
      | some x' =>
          simp [Document.findLoop, hrow, hf, specScanPositions, tryRowAt,
            List.findSome?]
      | none =>
          have lhs1 : Document.findLoop doc q SearchDir.Backward (j + 1 + 1) ⟨x, j + 1⟩ =
              Document.findLoop doc q SearchDir.Backward (j + 1)
                ⟨(doc.rows.getD j Row.default).size, j⟩ := by
            simp [Document.findLoop, hrow, hf]
          have rhs1 : (specScanPositions doc ⟨x, j + 1⟩ SearchDir.Backward).findSome?
                (tryRowAt doc q SearchDir.Backward) =
              ((List.range (j + 1)).reverse.map fun z =>
                  (⟨(doc.rows.getD z Row.default).size, z⟩ : Position)).findSome?
                (tryRowAt doc q SearchDir.Backward) := by
            simp [specScanPositions, tryRowAt, hrow, hf, List.findSome?]
          rw [lhs1, rhs1, ih ((doc.rows.getD j Row.default).size) (by omega)]
          simp [specScanPositions, List.range_succ]

/-! ## Claim theorems -/

/-- C1: the claim says `Line.insertText(at, s)` rebuilds the content as
(clusters before `at`) ++ s ++ (clusters from `at`) when `at < L`, so the
inserted text is always present afterwards.  The code contradicts it: for
the row "ab", inserting "x" at cluster offset 1 leaves the content "ab"
and no 'x' anywhere — `Row::insert_str` computes the rebuilt string but
never writes it back. -/
theorem row_insert_str_discards_rebuild :
    ((Row.fromList ['a','b']).insert_str 1 ['x']).string = ['a','b']
    ∧ ((Row.fromList ['a','b']).insert_str 1 ['x']).string.contains 'x'
        = false := by
  decide

/-- C2: the claim says every mutating operation leaves the dirty flag
true whenever it actually mutated.  The code contradicts it:
`Document::delete` (and `Document::insert_str`) never touch the flag, so
deleting the first cluster of the single line "ab" changes the rows but
leaves the document clean. -/
theorem doc_delete_leaves_dirty_false :
    ((Document.mk none [Row.fromList ['a','b']] false).delete ⟨0, 0⟩).rows
        = [Row.fromList ['b']]
    ∧ ((Document.mk none [Row.fromList ['a','b']] false).delete ⟨0, 0⟩).is_dirty
        = false := by
  decide

/-- C3: for every well-formed line, every non-newline character and every
valid cluster offset `i ≤ length`, `insert(i, c)` followed by `delete(i)`
restores the original content. -/
theorem row_insert_delete_id (r : Row) (c : Char) (i : Nat)
    (hwf : r.len = r.string.length) (hc : c ≠ '\n') (hi : i ≤ r.len) :
    ((r.insert i c).delete i).string = r.string := by
  rcases Nat.lt_or_ge i r.len with hlt | hge
  · have hins : r.insert i c =
        Row.fromList (r.string.take i ++ [c] ++ r.string.drop i) := by
      simp [Row.insert, if_neg (by omega : ¬ i ≥ r.len), Row.update_len,
        Row.fromList]
    rw [hins, Row.delete_eq _ _ rfl, Row.fromList_string, Row.fromList_string]
    have hlen : (r.string.take i).length = i := by
      simp [List.length_take]; omega
    have htake : (r.string.take i ++ [c] ++ r.string.drop i).take i
        = r.string.take i := by
      rw [List.append_assoc]
      exact List.take_left' hlen
    have hdrop : (r.string.take i ++ [c] ++ r.string.drop i).drop (i + 1)
        = r.string.drop i := by
      apply List.drop_left'
      simp [hlen]
    rw [htake, hdrop, List.take_append_drop]
  · have hieq : i = r.string.length := by omega
    have hins : r.insert i c = Row.fromList (r.string ++ [c]) := by
      simp [Row.insert, if_pos hge, Row.update_len, Row.fromList]
    rw [hins, Row.delete_eq _ _ rfl, Row.fromList_string, Row.fromList_string]
    have htake : (r.string ++ [c]).take i = r.string := by
      rw [hieq]
      exact List.take_left' rfl
    have hdrop : (r.string ++ [c]).drop (i + 1) = [] := by
      apply List.drop_of_length_le
      simp [hieq]
    rw [htake, hdrop, List.append_nil]

/-- C3 witness: the theorem at the row "ab", character 'x', offset 1. -/
theorem row_insert_delete_id_witness :
    (((Row.fromList ['a','b']).insert 1 'x').delete 1).string
      = (Row.fromList ['a','b']).string :=
  row_insert_delete_id (Row.fromList ['a','b']) 'x' 1 (by decide) (by decide)
    (by decide)

/-- C10: inserting '\n' at a position whose line index equals the line
count leaves the row sequence unchanged but still sets the dirty flag
(`Document::insert` marks dirty before `insert_enter_key` declines). -/
theorem doc_insert_newline_at_end_frame (doc : Document) (p : Position)
    (h : p.y = doc.rows_size) :
    (doc.insert p '\n').rows = doc.rows ∧ (doc.insert p '\n').dirty = true := by
  simp [Document.insert, Document.insert_enter_key, Document.rows_size, h]

/-- C10 witness: the theorem at a one-line document and position (0, 1). -/
theorem doc_insert_newline_at_end_frame_witness :
    ((Document.mk none [Row.fromList ['a','b']] false).insert ⟨0, 1⟩ '\n').rows
        = (Document.mk none [Row.fromList ['a','b']] false).rows
    ∧ ((Document.mk none [Row.fromList ['a','b']] false).insert ⟨0, 1⟩ '\n').dirty
        = true :=
  doc_insert_newline_at_end_frame (Document.mk none [Row.fromList ['a','b']] false)
    ⟨0, 1⟩ (by decide)

/-- C4: inserting '\n' at a position addressing an existing line replaces
that line by its first `position.x` clusters and inserts a new line
holding exactly the removed tail at index `position.y + 1`; when
`position.y ≥ lineCount` the rows are untouched; concretely, on
["hello","world"] at (2,0) the lines become ["he","llo","world"] with the
dirty flag set. -/
theorem doc_insert_newline_splits :
    (∀ (doc : Document) (p : Position), doc.Wf →
      (p.y < doc.rows_size →
        (doc.insert p '\n').rows =
          doc.rows.take p.y
            ++ Row.fromList ((doc.rows.getD p.y Row.default).string.take p.x)
            :: Row.fromList ((doc.rows.getD p.y Row.default).string.drop p.x)
            :: doc.rows.drop (p.y + 1)) ∧
      (doc.rows_size ≤ p.y → (doc.insert p '\n').rows = doc.rows))
    ∧ ((Document.mk none [Row.fromList ['h','e','l','l','o'], Row.fromList ['w','o','r','l','d']]
          false).insert ⟨2, 0⟩ '\n').rows
        = [Row.fromList ['h','e'], Row.fromList ['l','l','o'],
            Row.fromList ['w','o','r','l','d']]
    ∧ ((Document.mk none [Row.fromList ['h','e','l','l','o'], Row.fromList ['w','o','r','l','d']]
          false).insert ⟨2, 0⟩ '\n').dirty = true := by
  refine ⟨?_, by decide, by decide⟩
  intro doc p hwf
  constructor
  · intro hlt
    simp only [Document.rows_size] at hlt
    have step : doc.insert p '\n' = Document.insert_enter_key { doc with dirty := true } p := by
      simp [Document.insert, Document.rows_size, Nat.not_lt.mpr (Nat.le_of_lt hlt)]
    rw [step]
    simp only [Document.insert_enter_key, Document.rows_size]
    rw [if_pos (by simpa using hlt)]
    simp only []
    rw [insertAt_modifyRow _ _ _ _ hlt,
      Row.delete_slice_fst _ _ (getD_wf hwf hlt),
      Row.delete_slice_new_row _ _ (getD_wf hwf hlt)]
  · intro hge
    simp only [Document.rows_size] at hge
    rcases Nat.lt_or_ge doc.rows.length p.y with hgt | hle
    · simp [Document.insert, Document.rows_size, hgt]
    · have heq : p.y = doc.rows.length := by omega
      simp [Document.insert, Document.insert_enter_key, Document.rows_size, heq]

/-- C4 witness: the split equation of the theorem at the one-line
document ["ab"] and position (1, 0). -/
theorem doc_insert_newline_splits_witness :
    ((Document.mk none [Row.fromList ['a','b']] false).insert ⟨1, 0⟩ '\n').rows =
      (Document.mk none [Row.fromList ['a','b']] false).rows.take 0
        ++ Row.fromList (((Document.mk none [Row.fromList ['a','b']]
              false).rows.getD 0 Row.default).string.take 1)
        :: Row.fromList (((Document.mk none [Row.fromList ['a','b']]
              false).rows.getD 0 Row.default).string.drop 1)
        :: (Document.mk none [Row.fromList ['a','b']] false).rows.drop 1 :=
  (doc_insert_newline_splits.1 (Document.mk none [Row.fromList ['a','b']] false)
    ⟨1, 0⟩ (by decide)).1 (by decide)

/-- C5: `Document::delete` at a non-last line whose `x` equals the line's
cluster length merges the next line's full text onto it and removes the
next line, dropping the line count by exactly one; otherwise (last line,
or `x` not at end) it deletes the single cluster at `x` of line `y`; and
it is a no-op when `y ≥ lineCount`. -/
theorem doc_delete_merge_or_single :
    ∀ (doc : Document) (p : Position), doc.Wf →
      (p.y + 1 < doc.rows_size →
        p.x = (doc.rows.getD p.y Row.default).string.length →
        (doc.delete p).rows =
          doc.rows.take p.y
            ++ Row.fromList ((doc.rows.getD p.y Row.default).string
                ++ (doc.rows.getD (p.y + 1) Row.default).string)
            :: doc.rows.drop (p.y + 2)
        ∧ (doc.delete p).rows_size = doc.rows_size - 1) ∧
      (p.y < doc.rows_size →
        (p.y + 1 = doc.rows_size ∨
          p.x ≠ (doc.rows.getD p.y Row.default).string.length) →
        (doc.delete p).rows =
          doc.rows.take p.y
            ++ Row.fromList ((doc.rows.getD p.y Row.default).string.take p.x
                ++ (doc.rows.getD p.y Row.default).string.drop (p.x + 1))
            :: doc.rows.drop (p.y + 1)) ∧
      (doc.rows_size ≤ p.y → doc.delete p = doc) := by
  intro doc p hwf
  refine ⟨?_, ?_, ?_⟩
  · intro h1 hx
    simp only [Document.rows_size] at h1
    have hsize : p.x = (doc.rows.getD p.y Row.default).size := hx
    have hwr : (doc.rows.getD p.y Row.default).len
        ≤ (doc.rows.getD p.y Row.default).size := by
      rw [getD_wf hwf (by omega)]
      exact Nat.le_refl _
    have hrows : (doc.delete p).rows =
        doc.rows.take p.y
          ++ Row.fromList ((doc.rows.getD p.y Row.default).string
              ++ (doc.rows.getD (p.y + 1) Row.default).string)
          :: doc.rows.drop (p.y + 2) := by
      simp only [Document.delete, Document.rows_size]
      rw [if_pos (show p.y < doc.rows.length by omega),
        if_pos (show p.y < doc.rows.length - 1 by omega), if_pos hsize]
      rw [show ({ doc with
            rows := (modifyRow doc.rows p.y fun _ =>
                (doc.rows.getD p.y Row.default).insert_str
                  (doc.rows.getD p.y Row.default).size
                  (doc.rows.getD (p.y + 1) Row.default).string).eraseIdx
              (p.y + 1) } : Document).rows
          = (modifyRow doc.rows p.y fun _ =>
                (doc.rows.getD p.y Row.default).insert_str
                  (doc.rows.getD p.y Row.default).size
                  (doc.rows.getD (p.y + 1) Row.default).string).eraseIdx
              (p.y + 1) from rfl]
      rw [Row.insert_str_append _ _ _ hwr, eraseIdx_modifyRow _ _ _ h1]
    refine ⟨hrows, ?_⟩
    simp only [Document.rows_size, hrows]
    simp only [List.length_append, List.length_cons, List.length_take,
      List.length_drop]
    omega
  · intro h1 h2
    simp only [Document.rows_size] at h1 h2
    have hrows : (doc.delete p).rows =
        modifyRow doc.rows p.y fun r => r.delete p.x := by
      simp only [Document.delete, Document.rows_size]
      rw [if_pos h1]
      by_cases hc1 : p.y < doc.rows.length - 1
      · have hxne : ¬ p.x = (doc.rows.getD p.y Row.default).size := by
          rcases h2 with hlast | hxne
          · omega
          · exact hxne
        rw [if_pos hc1, if_neg hxne]
      · rw [if_neg hc1]
    rw [hrows, modifyRow_eq _ _ _ h1, Row.delete_eq _ _ (getD_wf hwf h1)]
  · intro hge
    simp only [Document.rows_size] at hge
    simp only [Document.delete, Document.rows_size]
    rw [if_neg (by omega)]

/-- C5 witness: the merge case of the theorem at ["a","b"], position
(1, 0): the lines become ["ab"] and the count drops from 2 to 1. -/
theorem doc_delete_merge_or_single_witness :
    ((Document.mk none [Row.fromList ['a'], Row.fromList ['b']]
        false).delete ⟨1, 0⟩).rows =
      (Document.mk none [Row.fromList ['a'], Row.fromList ['b']]
        false).rows.take 0
        ++ Row.fromList (((Document.mk none [Row.fromList ['a'],
              Row.fromList ['b']] false).rows.getD 0 Row.default).string
            ++ ((Document.mk none [Row.fromList ['a'],
              Row.fromList ['b']] false).rows.getD 1 Row.default).string)
        :: (Document.mk none [Row.fromList ['a'], Row.fromList ['b']]
            false).rows.drop 2
    ∧ ((Document.mk none [Row.fromList ['a'], Row.fromList ['b']]
        false).delete ⟨1, 0⟩).rows_size =
      (Document.mk none [Row.fromList ['a'], Row.fromList ['b']]
        false).rows_size - 1 :=
  (doc_delete_merge_or_single (Document.mk none [Row.fromList ['a'],
      Row.fromList ['b']] false) ⟨1, 0⟩ (by decide)).1 (by decide) (by decide)

/-- C6 counterexample: the claim says `find` returns the first match in
the scan order it describes for every start position.  On the one-line
document ["ab"], searching "a" backward from (0, 1) — the one-past-end
line index that buffer operations accept — the scan order of the claim
reaches line 0 at its full length and finds the match at (0, 0), but
`Document::find` returns `none`: its loop aborts as soon as the start
line is missing instead of stepping to an earlier line. -/
theorem doc_find_backward_aborts_at_missing_line :
    (Document.mk none [Row.fromList ['a','b']] false).find ['a'] ⟨0, 1⟩
        SearchDir.Backward = none
    ∧ specScanFind (Document.mk none [Row.fromList ['a','b']] false)
        ['a'] ⟨0, 1⟩ SearchDir.Backward = some ⟨0, 0⟩ := by
  decide

/-- C6 (amended): `Document::find` returns the first match in the spec's
scan order — forward for every start position, backward for every start
position whose line exists (`startPosition.y < lineCount`; when the start
line is missing a backward search returns nothing instead of continuing
to earlier lines); it never wraps past either buffer end; concretely, on
["hello","world"], find("lo", (0,0), Forward) = (3,0) and
find("he", (3,0), Backward) = (0,0). -/
theorem doc_find_scan_order :
    (∀ (doc : Document) (q : List Char) (p : Position),
        doc.find q p SearchDir.Forward = specScanFind doc q p SearchDir.Forward)
    ∧ (∀ (doc : Document) (q : List Char) (p : Position), p.y < doc.rows_size →
        doc.find q p SearchDir.Backward = specScanFind doc q p SearchDir.Backward)
    ∧ (Document.mk none [Row.fromList ['h','e','l','l','o'], Row.fromList ['w','o','r','l','d']]
        false).find ['l','o'] ⟨0, 0⟩ SearchDir.Forward = some ⟨3, 0⟩
    ∧ (Document.mk none [Row.fromList ['h','e','l','l','o'], Row.fromList ['w','o','r','l','d']]
        false).find ['h','e'] ⟨3, 0⟩ SearchDir.Backward = some ⟨0, 0⟩ := by
  refine ⟨?_, ?_, by decide, by decide⟩
  · intro doc q p
    rcases Nat.lt_or_ge doc.rows.length p.y with hgt | hle
    · have hg : p.y > doc.rows_size := hgt
      have hrow : doc.row p.y = none := List.get?_eq_none.mpr (by omega)
      have h0 : doc.rows_size - (p.y + 1) = 0 := by
        simp only [Document.rows_size]; omega
      simp [Document.find, if_pos hg, specScanFind, specScanPositions, h0,
        tryRowAt, hrow, List.findSome?]
    · have hng : ¬ p.y > doc.rows_size := by
        simp only [Document.rows_size]; omega
      simp only [Document.find, if_neg hng]
      simp only [specScanFind]
      have := findLoop_forward doc q (doc.rows.length - p.y) p (by omega)
      simpa [Document.rows_size] using this
  · intro doc q p hlt
    simp only [Document.rows_size] at hlt
    have hng : ¬ p.y > doc.rows_size := by
      simp only [Document.rows_size]; omega
    simp only [Document.find, if_neg hng]
    simp only [specScanFind]
    have := findLoop_backward doc q p.y p.x hlt
    simpa using this

/-- C6 witness: the backward scan-order equation of the amended theorem
at the document ["ab"], query "b", start position (2, 0). -/
theorem doc_find_scan_order_witness :
    (Document.mk none [Row.fromList ['a','b']] false).find ['b'] ⟨2, 0⟩
        SearchDir.Backward
      = specScanFind (Document.mk none [Row.fromList ['a','b']] false)
          ['b'] ⟨2, 0⟩ SearchDir.Backward :=
  doc_find_scan_order.2.1 (Document.mk none [Row.fromList ['a','b']] false)
    ['b'] ⟨2, 0⟩ (by decide)

/-- C7: with a path, a successful save writes, over the lines in order,
each line's text followed by a single '\n' (one trailing newline after
every line including the last) and clears the dirty flag; with no path it
writes nothing, succeeds, and clears the dirty flag. -/
theorem doc_save_writes_lines :
    (∀ (doc : Document) (pa : String), doc.path = some pa →
        doc.save_to_disk true =
          ({ doc with dirty := false },
            Except.ok (some ((doc.rows.map fun r => r.string ++ ['\n']).flatten))))
    ∧ (∀ (doc : Document) (io_ok : Bool), doc.path = none →
        doc.save_to_disk io_ok = ({ doc with dirty := false }, Except.ok none)) := by
  constructor
  · intro doc pa h
    simp only [Document.save_to_disk, h]
    rw [if_pos trivial, save_foldl_eq]
    simp
  · intro doc io_ok h
    simp [Document.save_to_disk, h]

/-- C7 witness: the theorem at a dirty one-line document with path "f"
and at a dirty pathless document. -/
theorem doc_save_writes_lines_witness :
    (Document.mk (some (String.mk ['f'])) [Row.fromList ['a']] true).save_to_disk true
      = (Document.mk (some (String.mk ['f'])) [Row.fromList ['a']] false,
          Except.ok (some ((([Row.fromList ['a']]).map
            fun r => r.string ++ ['\n']).flatten)))
    ∧ (Document.mk none [Row.fromList ['a']] true).save_to_disk false
      = (Document.mk none [Row.fromList ['a']] false, Except.ok none) :=
  ⟨doc_save_writes_lines.1 (Document.mk (some (String.mk ['f'])) [Row.fromList ['a']] true)
      (String.mk ['f']) rfl,
    doc_save_writes_lines.2 (Document.mk none [Row.fromList ['a']] true)
      false rfl⟩

/-- C8: whenever `save_to_disk` reports an I/O error, the in-memory
document — its rows and its dirty flag — is exactly as before the call. -/
theorem doc_save_error_preserves (doc : Document) (io_ok : Bool)
    (h : (doc.save_to_disk io_ok).2 = Except.error ()) :
    (doc.save_to_disk io_ok).1 = doc := by
  rcases hp : doc.path with _ | pa
  · simp [Document.save_to_disk, hp] at h
  · cases io_ok with
    | false => simp [Document.save_to_disk, hp]
    | true => simp [Document.save_to_disk, hp] at h

/-- C8 witness: a failed save of a dirty document with path "f" leaves it
unchanged, still dirty. -/
theorem doc_save_error_preserves_witness :
    ((Document.mk (some (String.mk ['f'])) [Row.fromList ['a']] true).save_to_disk
        false).1
      = Document.mk (some (String.mk ['f'])) [Row.fromList ['a']] true :=
  doc_save_error_preserves
    (Document.mk (some (String.mk ['f'])) [Row.fromList ['a']] true) false rfl

/-- C9: after every cursor move, `x` is at most the cluster length of the
line at the new `y` (and 0 when no such line exists, since `lineSize` is
then 0), and `y` lies in `[0, lineCount - 1]` (hence 0 on an empty
buffer). -/
theorem move_clamps (doc : Document) (terminal_height : Nat) (p : Position)
    (k : MoveKey) :
    (process_move doc terminal_height p k).x
        ≤ lineSize doc (process_move doc terminal_height p k).y
    ∧ (process_move doc terminal_height p k).y ≤ doc.rows_size - 1 := by
  simp only [process_move]
  cases hrow : doc.row (moveStep doc terminal_height p k).2 with
  | none =>
      constructor
      · simp [hrow]
      · exact min_le_right _ _
  | some r =>
      have hlt : (moveStep doc terminal_height p k).2 < doc.rows.length :=
        (List.get?_eq_some.mp hrow).1
      have hmin : min (moveStep doc terminal_height p k).2 (doc.rows_size - 1)
          = (moveStep doc terminal_height p k).2 := by
        apply min_eq_left
        simp only [Document.rows_size]
        omega
      constructor
      · simp only [hrow, hmin, lineSize]
        exact min_le_right _ _
      · exact min_le_right _ _

end Slime
